import Mathlib

/-!
Verification of `scripts/analyze_funnels_offers.py`, a data-integrity auditor
that cross-references a "funnels" table with an "offer mappings" table and
emits a structured report.

The script is embedded shallowly: CSV rows become records whose optional
fields (`Option String`) cover both an absent column and an empty cell,
Python truthiness of a cell becomes `truthy`, `collections.Counter` values
become counting functions `String → Nat`, dict insertion order becomes
ordered association lists, and Python's stable `sorted(..., key=len,
reverse=True)` becomes a stable insertion sort.  `str.lower` is modelled on
the ASCII fragment (the fixed label set and all claims stay inside ASCII),
and the regex class `\s` is modelled by the six ASCII whitespace characters.
-/

namespace Audit

/-- Whitespace test used by the embedding of the regex class `\s` and of
`str.strip` (ASCII fragment). -/
def isWs (c : Char) : Bool :=
  c == ' ' || c == '\t' || c == '\n' || c == '\r' || c == '\x0b' || c == '\x0c'

/-- The 26 ASCII uppercase/lowercase letter pairs, driving the embedding of
`str.lower`. -/
def asciiCasePairs : List (Char × Char) :=
  "ABCDEFGHIJKLMNOPQRSTUVWXYZ".data.zip "abcdefghijklmnopqrstuvwxyz".data

/-- Embedding of `str.lower` on a single character (ASCII fragment). -/
def lowerChar (c : Char) : Char :=
  match asciiCasePairs.find? (fun p => p.1 == c) with
  | some p => p.2
  | none => c

/-- Embedding of `str.strip()`: drop leading and trailing whitespace. -/
def stripL (l : List Char) : List Char :=
  ((l.dropWhile isWs).reverse.dropWhile isWs).reverse

/-- Worker for `collapseWs`; the flag records whether the previous character
was part of a whitespace run already replaced by a single space. -/
def collapseAux : Bool → List Char → List Char
  | _, [] => []
  | prevWs, c :: cs =>
    if isWs c then
      if prevWs then collapseAux true cs else ' ' :: collapseAux true cs
    else c :: collapseAux false cs

/-- Embedding of `re.sub(r"\s+", " ", s)`: replace every maximal whitespace
run by one space. -/
def collapseWs (l : List Char) : List Char := collapseAux false l

/-- Embedding of the script's `normalize`:
`re.sub(r"\s+", " ", (value or "").strip().lower())`.
A missing value (`None`) is treated as the empty string; the string is
stripped, lower-cased, and its whitespace runs are collapsed. -/
def normalize (value : Option String) : String :=
  ⟨collapseWs ((stripL (value.getD "").data).map lowerChar)⟩

/-- Maximal non-whitespace runs of a character list, in order.  Used only to
state and prove properties of `normalize` (it is the word list of
`str.split`). -/
def words : List Char → List (List Char)
  | [] => []
  | c :: cs =>
    if isWs c then words cs
    else (c :: cs.takeWhile (fun d => !isWs d)) :: words (cs.dropWhile (fun d => !isWs d))
termination_by l => l.length
decreasing_by
  · simp only [List.length_cons]; omega
  · simp only [List.length_cons]
    have h := (List.dropWhile_sublist (l := cs) (fun d => !isWs d)).length_le
    omega

/-- Join a list of words with single spaces (the canonical shape of a
normalized string). -/
def joinSp : List (List Char) → List Char
  | [] => []
  | [w] => w
  | w :: rest => w ++ ' ' :: joinSp rest

/-- Whether a character list starts with a whitespace character. -/
def wsHead (l : List Char) : Bool :=
  match l with
  | [] => false
  | c :: _ => isWs c

/-- Classify the head of a character list: empty, whitespace, or
non-whitespace.  Used to keep the two sides of `CaseWsEquiv` in sync. -/
def headKind (l : List Char) : Nat :=
  match l with
  | [] => 0
  | c :: _ => if isWs c then 1 else 2

/-- Two character lists that differ only in letter case or in the lengths of
(nonempty) whitespace runs: characters outside whitespace runs must agree up
to `lowerChar`, and whitespace runs must face whitespace runs. -/
inductive CaseWsEquiv : List Char → List Char → Prop
  | nil : CaseWsEquiv [] []
  | chr {c d : Char} {xs ys : List Char} :
      isWs c = false → isWs d = false → lowerChar c = lowerChar d →
      CaseWsEquiv xs ys → CaseWsEquiv (c :: xs) (d :: ys)
  | ws {a b : Char} {w₁ w₂ xs ys : List Char} :
      isWs a = true → isWs b = true →
      (∀ c ∈ w₁, isWs c = true) → (∀ c ∈ w₂, isWs c = true) →
      CaseWsEquiv xs ys → CaseWsEquiv (a :: (w₁ ++ xs)) (b :: (w₂ ++ ys))

/-- A row of `funnels_utf8.csv`.  `id` is required by the script
(`row["id"]`); `name` is read with `row.get("name", "")`. -/
structure FunnelRow where
  id : String
  name : Option String
  deriving DecidableEq

/-- A row of `offer_mappings_full_fixed.csv`.  Every field the script reads
with `row.get(...)` is optional; `none` covers both an absent column and a
`None` cell, and `some ""` an empty cell (the loader contract treats the two
identically). -/
structure OfferRow where
  project_id : Option String
  funnel_id : Option String
  nome_produto : Option String
  nome_oferta : Option String
  origem : Option String
  deriving DecidableEq

/-- Python truthiness of an optional cell: `None` and `""` are falsy. -/
def truthy : Option String → Bool
  | none => false
  | some s => !(s == "")

/-- Extract the cell text, defaulting a missing cell to `""` (the script
only indexes cells it has already checked for truthiness, or uses
`.get(k, "")`). -/
def getS (v : Option String) : String := v.getD ""

/-- Embedding of `funnel_ids = {row["id"] for row in funnels}` (the set is
used only through membership, so a list models it). -/
def funnelIds (funnels : List FunnelRow) : List String :=
  funnels.map (·.id)

/-- Embedding of `invalid_funnel_rows`: offer rows with a truthy `funnel_id`
that is not a funnel id. -/
def invalidFunnelRows (funnels : List FunnelRow) (offers : List OfferRow) : List OfferRow :=
  offers.filter (fun r => truthy r.funnel_id && !((funnelIds funnels).contains (getS r.funnel_id)))

/-- Embedding of `missing_funnel_rows`: offer rows whose `funnel_id` is
falsy. -/
def missingFunnelRows (offers : List OfferRow) : List OfferRow :=
  offers.filter (fun r => !truthy r.funnel_id)

/-- Embedding of `missing_project_rows`. -/
def missingProjectRows (offers : List OfferRow) : List OfferRow :=
  offers.filter (fun r => !truthy r.project_id)

/-- Embedding of `missing_product_rows`. -/
def missingProductRows (offers : List OfferRow) : List OfferRow :=
  offers.filter (fun r => !truthy r.nome_produto)

/-- Embedding of `missing_offer_rows`. -/
def missingOfferRows (offers : List OfferRow) : List OfferRow :=
  offers.filter (fun r => !truthy r.nome_oferta)

/-- Embedding of the counter `offers_by_funnel` as its counting function;
a string is a key of the counter iff its count is positive. -/
def offersByFunnel (offers : List OfferRow) (s : String) : Nat :=
  (offers.filter (fun r => truthy r.funnel_id && getS r.funnel_id == s)).length

/-- Embedding of `funnels_without_offers`: funnel rows whose `id` is not a
key of `offers_by_funnel`. -/
def funnelsWithoutOffers (funnels : List FunnelRow) (offers : List OfferRow) : List FunnelRow :=
  funnels.filter (fun f => offersByFunnel offers f.id == 0)

/-- The normalized 4-tuple grouping key of the duplicate detector. -/
abbrev NKey := String × String × String × String

/-- The grouping key of an offer row (lines 43-48 of the script). -/
def keyOf (r : OfferRow) : NKey :=
  (normalize r.project_id, normalize r.funnel_id, normalize r.nome_produto,
    normalize r.nome_oferta)

/-- One step of building the `defaultdict(list)`: append the row to its
key's group, creating the group at the end on first sight of the key
(dict insertion order). -/
def insertGroup : List (NKey × List OfferRow) → NKey → OfferRow → List (NKey × List OfferRow)
  | [], k, r => [(k, [r])]
  | g :: rest, k, r =>
    if g.1 = k then (g.1, g.2 ++ [r]) :: rest else g :: insertGroup rest k r

/-- Embedding of the `duplicate_groups` dict before filtering: an ordered
association list from key to the rows carrying that key, keys in
first-encounter order, rows in input order. -/
def duplicateGroupsAll (offers : List OfferRow) : List (NKey × List OfferRow) :=
  offers.foldl (fun acc r => insertGroup acc (keyOf r) r) []

/-- Invariant of the grouping loop after processing the rows `p`: keys are
distinct, a key is present exactly when some processed row carries it, and
each group holds exactly the processed rows carrying its key, in order. -/
def GroupsInv (p : List OfferRow) (acc : List (NKey × List OfferRow)) : Prop :=
  (acc.map Prod.fst).Nodup ∧
  (∀ k : NKey, k ∈ acc.map Prod.fst ↔ ∃ r ∈ p, keyOf r = k) ∧
  (∀ g ∈ acc, g.2 = p.filter (fun r => keyOf r = g.1))

/-- Embedding of `duplicate_groups` after line 51: only groups with more
than one member are kept. -/
def duplicateGroups (offers : List OfferRow) : List (NKey × List OfferRow) :=
  (duplicateGroupsAll offers).filter (fun g => 1 < g.2.length)

/-- Embedding of `sum(len(rows) - 1 for rows in duplicate_groups.values())`. -/
def extraRows (offers : List OfferRow) : Nat :=
  ((duplicateGroups offers).map (fun g => g.2.length - 1)).sum

/-- The fixed placeholder label set `generic_offer_names` (membership only,
so a list models the Python set). -/
def genericOfferNames : List String :=
  ["auto-importado", "auto-importado de vendas existentes", "importado das vendas"]

/-- Embedding of `generic_offers`: rows whose normalized `nome_oferta` is a
placeholder label. -/
def genericOffers (offers : List OfferRow) : List OfferRow :=
  offers.filter (fun r => genericOfferNames.contains (normalize r.nome_oferta))

/-- Embedding of `row.get("origem") or "(vazio)"`. -/
def origemLabel (r : OfferRow) : String :=
  if truthy r.origem then getS r.origem else "(vazio)"

/-- Embedding of the `by_origem` counter as its counting function. -/
def byOrigem (offers : List OfferRow) (s : String) : Nat :=
  (offers.filter (fun r => origemLabel r == s)).length

/-- Embedding of the `samples.invalid_funnel_ids` counter as its counting
function (line 105: `Counter(row["funnel_id"] for row in invalid_funnel_rows)`,
with no truncation). -/
def invalidFunnelIdsSample (funnels : List FunnelRow) (offers : List OfferRow)
    (s : String) : Nat :=
  ((invalidFunnelRows funnels offers).filter (fun r => getS r.funnel_id == s)).length

/-- Embedding of `samples.funnels_without_offers`: the first 10 funnels
without offers, reduced to id and name. -/
def funnelsWithoutOffersSample (funnels : List FunnelRow) (offers : List OfferRow) :
    List (String × String) :=
  ((funnelsWithoutOffers funnels offers).take 10).map (fun f => (f.id, f.name.getD ""))

/-- One entry of `samples.top_duplicate_groups`. -/
structure DupSample where
  count : Nat
  project_id : String
  funnel_id : String
  nome_produto : String
  nome_oferta : String
  deriving DecidableEq

/-- Build a sample entry from a duplicate group: member count plus the four
display fields of `rows[0]` (groups are never empty in the script; an empty
group defaults to `""` fields). -/
def mkDupSample (g : NKey × List OfferRow) : DupSample where
  count := g.2.length
  project_id := getS (g.2.head?.bind (·.project_id))
  funnel_id := getS (g.2.head?.bind (·.funnel_id))
  nome_produto := getS (g.2.head?.bind (·.nome_produto))
  nome_oferta := getS (g.2.head?.bind (·.nome_oferta))

/-- Stable insertion of a group into a list sorted by descending member
count: the new group goes before every already-present group of equal or
smaller count (the already-present ones come from later input positions). -/
def insDesc (g : NKey × List OfferRow) :
    List (NKey × List OfferRow) → List (NKey × List OfferRow)
  | [] => [g]
  | h :: t => if h.2.length ≤ g.2.length then g :: h :: t else h :: insDesc g t

/-- Embedding of Python's stable `sorted(duplicate_groups.values(), key=len,
reverse=True)` as a stable insertion sort (descending by member count, ties
in first-encounter order). -/
def sortByLenDesc (l : List (NKey × List OfferRow)) : List (NKey × List OfferRow) :=
  l.foldr insDesc []

/-- Embedding of `samples.top_duplicate_groups` (lines 109-118). -/
def topDuplicateGroups (offers : List OfferRow) : List DupSample :=
  ((sortByLenDesc (duplicateGroups offers)).take 10).map mkDupSample

/-- The `totals` section of the report. -/
structure Totals where
  funnels : Nat
  offers : Nat
  deriving DecidableEq

/-- The `integrity` section of the report. -/
structure Integrity where
  offers_missing_funnel_id : Nat
  offers_with_invalid_funnel_id : Nat
  offers_missing_project_id : Nat
  offers_missing_nome_produto : Nat
  offers_missing_nome_oferta : Nat
  funnels_without_offers : Nat
  deriving DecidableEq

/-- The `duplicates` section of the report. -/
structure Duplicates where
  groups : Nat
  extra_rows : Nat
  deriving DecidableEq

/-- The `semantics` section of the report (`by_origem` modelled as a
counting function). -/
structure Semantics where
  generic_offer_names : Nat
  by_origem : String → Nat

/-- The `samples` section of the report (`invalid_funnel_ids` modelled as a
counting function). -/
structure Samples where
  invalid_funnel_ids : String → Nat
  funnels_without_offers : List (String × String)
  top_duplicate_groups : List DupSample

/-- The three fixed remediation query templates. -/
structure Remediation where
  check_invalid_funnel_sql : String
  backfill_by_legacy_name_sql : String
  reassign_invalid_funnel_sql_template : String
  deriving DecidableEq

/-- The fixed `remediation` block (lines 60-84), with the same literal
pieces concatenated as in the source. -/
def remediationBlock : Remediation where
  check_invalid_funnel_sql :=
    "SELECT om.project_id, om.funnel_id, COUNT(*) " ++
    "FROM public.offer_mappings om " ++
    "LEFT JOIN public.funnels f ON f.id = om.funnel_id " ++
    "WHERE om.funnel_id IS NOT NULL AND f.id IS NULL " ++
    "GROUP BY om.project_id, om.funnel_id ORDER BY COUNT(*) DESC;"
  backfill_by_legacy_name_sql :=
    "UPDATE public.offer_mappings om " ++
    "SET funnel_id = f.id, updated_at = now() " ++
    "FROM public.funnels f " ++
    "WHERE om.project_id = f.project_id " ++
    "AND om.funnel_id IS NULL " ++
    "AND om.id_funil IS NOT NULL " ++
    "AND btrim(lower(om.id_funil)) = btrim(lower(f.name));"
  reassign_invalid_funnel_sql_template :=
    "UPDATE public.offer_mappings om " ++
    "SET funnel_id = :target_funnel_id::uuid, updated_at = now() " ++
    "WHERE om.project_id = :project_id::uuid " ++
    "AND (om.funnel_id IS NULL OR NOT EXISTS (" ++
    "SELECT 1 FROM public.funnels f WHERE f.id = om.funnel_id));"

/-- The full report document. -/
structure Report where
  totals : Totals
  integrity : Integrity
  duplicates : Duplicates
  semantics : Semantics
  samples : Samples
  remediation : Remediation

/-- Embedding of the report assembly (lines 86-121). -/
def report (funnels : List FunnelRow) (offers : List OfferRow) : Report where
  totals := ⟨funnels.length, offers.length⟩
  integrity :=
    ⟨(missingFunnelRows offers).length, (invalidFunnelRows funnels offers).length,
      (missingProjectRows offers).length, (missingProductRows offers).length,
      (missingOfferRows offers).length, (funnelsWithoutOffers funnels offers).length⟩
  duplicates := ⟨(duplicateGroups offers).length, extraRows offers⟩
  semantics := ⟨(genericOffers offers).length, byOrigem offers⟩
  samples :=
    ⟨invalidFunnelIdsSample funnels offers, funnelsWithoutOffersSample funnels offers,
      topDuplicateGroups offers⟩
  remediation := remediationBlock

/-- The two funnel rows of the spec's sample scenario. -/
def exFunnels : List FunnelRow :=
  [⟨"F1", some "Sale"⟩, ⟨"F2", some "Lead"⟩]

/-- The three offer rows of the spec's sample scenario. -/
def exOffers : List OfferRow :=
  [⟨some "P1", some "F1", some "X", some "Auto-Importado", none⟩,
   ⟨some "P1", some "F9", some "X", some "Promo", none⟩,
   ⟨some "P1", some "", some "Y", some "Promo", none⟩]

/-- The spec's duplicate scenario: the first two rows agree on the
normalized 4-tuple (differing only in case and whitespace), the third does
not. -/
def dupOffers : List OfferRow :=
  [⟨some "P1", some "F1", some "Prod", some "Offer A", none⟩,
   ⟨some "p1 ", some "F1 ", some " prod", some "offer  a", none⟩,
   ⟨some "P1", some "F1", some "Prod", some "Other", none⟩]

/-- Eleven offer rows with eleven distinct funnel ids, none of which is a
known funnel id. -/
def elevenInvalidOffers : List OfferRow :=
  [⟨some "P", some "G0", some "x", some "y", none⟩,
   ⟨some "P", some "G1", some "x", some "y", none⟩,
   ⟨some "P", some "G2", some "x", some "y", none⟩,
   ⟨some "P", some "G3", some "x", some "y", none⟩,
   ⟨some "P", some "G4", some "x", some "y", none⟩,
   ⟨some "P", some "G5", some "x", some "y", none⟩,
   ⟨some "P", some "G6", some "x", some "y", none⟩,
   ⟨some "P", some "G7", some "x", some "y", none⟩,
   ⟨some "P", some "G8", some "x", some "y", none⟩,
   ⟨some "P", some "G9", some "x", some "y", none⟩,
   ⟨some "P", some "G10", some "x", some "y", none⟩]

/-! ### Character-level lemmas -/

theorem find?_snd_none : ∀ p ∈ asciiCasePairs,
    asciiCasePairs.find? (fun q => q.1 == p.2) = none := by decide

theorem pairs_not_ws : ∀ p ∈ asciiCasePairs, isWs p.1 = false ∧ isWs p.2 = false := by decide

theorem lowerChar_idem (c : Char) : lowerChar (lowerChar c) = lowerChar c := by
  cases h : asciiCasePairs.find? (fun p => p.1 == c) with
  | none =>
    have h1 : lowerChar c = c := by unfold lowerChar; rw [h]
    rw [h1]; exact h1
  | some p =>
    have h1 : lowerChar c = p.2 := by unfold lowerChar; rw [h]
    have hp : p ∈ asciiCasePairs := List.mem_of_find?_eq_some h
    have h2 : lowerChar p.2 = p.2 := by
      unfold lowerChar; rw [find?_snd_none p hp]
    rw [h1, h2]

theorem isWs_lowerChar (c : Char) : isWs (lowerChar c) = isWs c := by
  cases h : asciiCasePairs.find? (fun p => p.1 == c) with
  | none =>
    have h1 : lowerChar c = c := by unfold lowerChar; rw [h]
    rw [h1]
  | some p =>
    have h1 : lowerChar c = p.2 := by unfold lowerChar; rw [h]
    have hp : p ∈ asciiCasePairs := List.mem_of_find?_eq_some h
    have hc : p.1 = c := by
      have h2 := List.find?_some h
      simpa using h2
    rw [h1, ← hc, (pairs_not_ws p hp).2, (pairs_not_ws p hp).1]

/-! ### takeWhile / dropWhile helpers -/

theorem takeWhile_all {α : Type} {p : α → Bool} {l : List α}
    (h : ∀ c ∈ l, p c = true) : l.takeWhile p = l := by
  induction l with
  | nil => rfl
  | cons x xs ih =>
    rw [List.takeWhile_cons, if_pos (h x (by simp))]
    rw [ih (fun c hc => h c (by simp [hc]))]

theorem dropWhile_all {α : Type} {p : α → Bool} {l : List α}
    (h : ∀ c ∈ l, p c = true) : l.dropWhile p = [] := by
  induction l with
  | nil => rfl
  | cons x xs ih =>
    rw [List.dropWhile_cons, if_pos (h x (by simp))]
    exact ih (fun c hc => h c (by simp [hc]))

theorem takeWhile_append_all {α : Type} {p : α → Bool} {a : List α} (b : List α)
    (h : ∀ c ∈ a, p c = true) : (a ++ b).takeWhile p = a ++ b.takeWhile p := by
  induction a with
  | nil => simp
  | cons x xs ih =>
    have hx : p x = true := h x (by simp)
    rw [List.cons_append, List.takeWhile_cons, if_pos hx,
      ih (fun c hc => h c (by simp [hc])), List.cons_append]

theorem dropWhile_append_all {α : Type} {p : α → Bool} {a : List α} (b : List α)
    (h : ∀ c ∈ a, p c = true) : (a ++ b).dropWhile p = b.dropWhile p := by
  induction a with
  | nil => simp
  | cons x xs ih =>
    have hx : p x = true := h x (by simp)
    rw [List.cons_append, List.dropWhile_cons, if_pos hx,
      ih (fun c hc => h c (by simp [hc]))]

theorem takeWhile_append_not_all {α : Type} {p : α → Bool} {a : List α} (b : List α)
    (h : ¬ ∀ c ∈ a, p c = true) : (a ++ b).takeWhile p = a.takeWhile p := by
  induction a with
  | nil => exact absurd (by simp) h
  | cons x xs ih =>
    by_cases hx : p x = true
    · have h' : ¬ ∀ c ∈ xs, p c = true := by
        intro hall
        exact h (by
          intro c hc
          rcases List.mem_cons.mp hc with rfl | hc
          · exact hx
          · exact hall c hc)
      rw [List.cons_append, List.takeWhile_cons, if_pos hx, ih h',
        List.takeWhile_cons, if_pos hx]
    · rw [List.cons_append, List.takeWhile_cons, if_neg hx,
        List.takeWhile_cons, if_neg hx]

theorem dropWhile_append_not_all {α : Type} {p : α → Bool} {a : List α} (b : List α)
    (h : ¬ ∀ c ∈ a, p c = true) : (a ++ b).dropWhile p = a.dropWhile p ++ b := by
  induction a with
  | nil => exact absurd (by simp) h
  | cons x xs ih =>
    by_cases hx : p x = true
    · have h' : ¬ ∀ c ∈ xs, p c = true := by
        intro hall
        exact h (by
          intro c hc
          rcases List.mem_cons.mp hc with rfl | hc
          · exact hx
          · exact hall c hc)
      rw [List.cons_append, List.dropWhile_cons, if_pos hx, ih h',
        List.dropWhile_cons, if_pos hx]
    · rw [List.cons_append, List.dropWhile_cons, if_neg hx,
        List.dropWhile_cons, if_neg hx, List.cons_append]

theorem head?_dropWhile {α : Type} {p : α → Bool} {l : List α} {c : α}
    (h : (l.dropWhile p).head? = some c) : p c = false := by
  induction l with
  | nil => simp [List.dropWhile] at h
  | cons a t ih =>
    rw [List.dropWhile_cons] at h
    split at h
    · exact ih h
    · next hn =>
      simp at h
      subst h
      simpa using hn

/-! ### Lemmas about `words` -/

theorem words_nil : words [] = [] := by simp [words]

theorem words_cons_ws {c : Char} (cs : List Char) (hc : isWs c = true) :
    words (c :: cs) = words cs := by
  rw [words, if_pos hc]

theorem words_cons_nw {c : Char} (cs : List Char) (hc : isWs c = false) :
    words (c :: cs)
      = (c :: cs.takeWhile (fun d => !isWs d)) :: words (cs.dropWhile (fun d => !isWs d)) := by
  rw [words, if_neg (by simp [hc])]

theorem words_eq_nil {l : List Char} (h : ∀ c ∈ l, isWs c = true) : words l = [] := by
  induction l with
  | nil => exact words_nil
  | cons c cs ih =>
    rw [words_cons_ws cs (h c (by simp))]
    exact ih (fun d hd => h d (by simp [hd]))

theorem all_ws_of_words_eq_nil {l : List Char} (h : words l = []) :
    ∀ c ∈ l, isWs c = true := by
  induction l with
  | nil => simp
  | cons c cs ih =>
    by_cases hc : isWs c = true
    · rw [words_cons_ws cs hc] at h
      intro d hd
      rcases List.mem_cons.mp hd with rfl | hd
      · exact hc
      · exact ih h d hd
    · rw [words_cons_nw cs (by simpa using hc)] at h
      exact absurd h (by simp)

theorem words_ws_append {w : List Char} (hw : ∀ c ∈ w, isWs c = true) (xs : List Char) :
    words (w ++ xs) = words xs := by
  induction w with
  | nil => rfl
  | cons c cs ih =>
    rw [List.cons_append, words_cons_ws _ (hw c (by simp))]
    exact ih (fun d hd => hw d (by simp [hd]))

theorem words_append_ws_aux {w : List Char} (hw : ∀ c ∈ w, isWs c = true) :
    ∀ n xs, xs.length ≤ n → words (xs ++ w) = words xs := by
  intro n
  induction n with
  | zero =>
    intro xs h
    have hx : xs = [] := by
      cases xs with
      | nil => rfl
      | cons a t => simp at h
    subst hx
    rw [List.nil_append, words_nil]
    exact words_eq_nil hw
  | succ n ih =>
    intro xs hlen
    cases xs with
    | nil =>
      rw [List.nil_append, words_nil]
      exact words_eq_nil hw
    | cons c cs =>
      have hlen' : cs.length ≤ n := by simpa using Nat.le_of_succ_le_succ hlen
      by_cases hc : isWs c = true
      · rw [List.cons_append, words_cons_ws _ hc, words_cons_ws _ hc]
        exact ih cs hlen'
      · have hc' : isWs c = false := by simpa using hc
        rw [List.cons_append, words_cons_nw _ hc', words_cons_nw _ hc']
        by_cases hall : ∀ x ∈ cs, (!isWs x) = true
        · rw [takeWhile_append_all w hall, dropWhile_append_all w hall,
            takeWhile_all hall, dropWhile_all hall]
          cases w with
          | nil => simp [words_nil]
          | cons d w' =>
            have hd : isWs d = true := hw d (by simp)
            rw [List.takeWhile_cons, if_neg (by simp [hd]),
              List.dropWhile_cons, if_neg (by simp [hd]),
              words_nil, words_eq_nil hw]
            simp
        · rw [takeWhile_append_not_all w hall, dropWhile_append_not_all w hall]
          congr 1
          exact ih (cs.dropWhile (fun d => !isWs d))
            (le_trans (List.dropWhile_sublist _).length_le hlen')

theorem words_append_ws {w : List Char} (hw : ∀ c ∈ w, isWs c = true) (xs : List Char) :
    words (xs ++ w) = words xs :=
  words_append_ws_aux hw xs.length xs le_rfl

theorem words_dropWhile (l : List Char) : words (l.dropWhile isWs) = words l := by
  induction l with
  | nil => rfl
  | cons c cs ih =>
    by_cases hc : isWs c = true
    · rw [List.dropWhile_cons, if_pos hc, ih, words_cons_ws _ hc]
    · rw [List.dropWhile_cons, if_neg hc]

theorem words_map_aux :
    ∀ n (l : List Char), l.length ≤ n →
      words (l.map lowerChar) = (words l).map (List.map lowerChar) := by
  intro n
  induction n with
  | zero =>
    intro l h
    have hx : l = [] := by
      cases l with
      | nil => rfl
      | cons a t => simp at h
    subst hx
    simp [words_nil]
  | succ n ih =>
    intro l hlen
    cases l with
    | nil => simp [words_nil]
    | cons c cs =>
      have hlen' : cs.length ≤ n := by simpa using Nat.le_of_succ_le_succ hlen
      by_cases hc : isWs c = true
      · have hc2 : isWs (lowerChar c) = true := by rw [isWs_lowerChar]; exact hc
        rw [List.map_cons, words_cons_ws _ hc2, words_cons_ws _ hc]
        exact ih cs hlen'
      · have hc' : isWs c = false := by simpa using hc
        have hc2 : isWs (lowerChar c) = false := by rw [isWs_lowerChar]; exact hc'
        have hfun : (fun d => !isWs d) ∘ lowerChar = (fun d => !isWs d) := by
          funext d
          simp [isWs_lowerChar]
        rw [List.map_cons, words_cons_nw _ hc2, words_cons_nw _ hc',
          List.takeWhile_map, List.dropWhile_map, hfun,
          ih (cs.dropWhile (fun d => !isWs d))
            (le_trans (List.dropWhile_sublist _).length_le hlen')]
        simp

theorem words_map_lowerChar (l : List Char) :
    words (l.map lowerChar) = (words l).map (List.map lowerChar) :=
  words_map_aux l.length l le_rfl

/-! ### Strip and collapse -/

theorem dropTrail_decomp (m : List Char) :
    (m.reverse.dropWhile isWs).reverse ++ (m.reverse.takeWhile isWs).reverse = m ∧
    ∀ c ∈ (m.reverse.takeWhile isWs).reverse, isWs c = true := by
  constructor
  · have h := List.takeWhile_append_dropWhile isWs m.reverse
    have h2 := congrArg List.reverse h
    rw [List.reverse_append] at h2
    simpa using h2
  · intro c hc
    rw [List.mem_reverse] at hc
    exact List.mem_takeWhile_imp hc

theorem noTrail_dropTrail (m : List Char) {c : Char}
    (h : ((m.reverse.dropWhile isWs).reverse).getLast? = some c) : isWs c = false := by
  rw [List.getLast?_reverse] at h
  exact head?_dropWhile h

theorem stripL_map_lowerChar (l : List Char) :
    stripL (l.map lowerChar) = (stripL l).map lowerChar := by
  have hfun : isWs ∘ lowerChar = isWs := by
    funext d
    simp [isWs_lowerChar]
  unfold stripL
  rw [List.dropWhile_map, hfun, ← List.map_reverse, List.dropWhile_map, hfun,
    ← List.map_reverse]

theorem joinSp_cons_cons (c : Char) (w : List Char) (rest : List (List Char)) :
    joinSp ((c :: w) :: rest) = c :: joinSp (w :: rest) := by
  cases rest with
  | nil => rfl
  | cons r rs => simp [joinSp]

theorem collapseAux_eq_joinSp :
    ∀ l : List Char, (∀ c, l.getLast? = some c → isWs c = false) →
      collapseAux true l = joinSp (words l) ∧
      collapseAux false l = (if wsHead l then [' '] else []) ++ joinSp (words l) := by
  intro l
  induction l with
  | nil =>
    intro _
    constructor
    · rw [words_nil]; rfl
    · rw [words_nil]; rfl
  | cons c cs ih =>
    intro h
    by_cases hc : isWs c = true
    · cases cs with
      | nil => exact absurd (h c rfl) (by simp [hc])
      | cons d cs' =>
        have hcs : ∀ x, (d :: cs').getLast? = some x → isWs x = false := by
          intro x hx
          exact h x (by rw [List.getLast?_cons_cons]; exact hx)
        obtain ⟨ihT, ihF⟩ := ih hcs
        constructor
        · rw [words_cons_ws _ hc]
          simp only [collapseAux, hc, if_true]
          exact ihT
        · rw [words_cons_ws _ hc]
          have hwsh : wsHead (c :: d :: cs') = true := by simp [wsHead, hc]
          rw [hwsh, if_pos rfl, ← ihT]
          simp [collapseAux, hc]
    · have hc' : isWs c = false := by simpa using hc
      have hcs : ∀ x, cs.getLast? = some x → isWs x = false := by
        intro x hx
        cases cs with
        | nil => simp at hx
        | cons d cs' => exact h x (by rw [List.getLast?_cons_cons]; exact hx)
      obtain ⟨ihT, ihF⟩ := ih hcs
      have key : c :: collapseAux false cs = joinSp (words (c :: cs)) := by
        cases cs with
        | nil =>
          rw [words_cons_nw _ hc']
          simp only [collapseAux, List.takeWhile_nil, List.dropWhile_nil, words_nil]
          rfl
        | cons d cs' =>
          by_cases hd : isWs d = true
          · rw [ihF]
            have hwsh : wsHead (d :: cs') = true := by simp [wsHead, hd]
            rw [hwsh, if_pos rfl]
            rw [words_cons_nw _ hc', List.takeWhile_cons, if_neg (by simp [hd]),
              List.dropWhile_cons, if_neg (by simp [hd])]
            have hne : words (d :: cs') ≠ [] := by
              intro hnil
              have hall := all_ws_of_words_eq_nil hnil
              have hlast : (d :: cs').getLast? = some ((d :: cs').getLast (by simp)) :=
                List.getLast?_eq_getLast _ (by simp)
              have h1 := hcs _ hlast
              have h2 := hall _ (List.getLast_mem (l := d :: cs') (by simp))
              rw [h1] at h2
              exact absurd h2 (by simp)
            cases hW : words (d :: cs') with
            | nil => exact absurd hW hne
            | cons w W' => simp [joinSp]
          · have hd' : isWs d = false := by simpa using hd
            rw [ihF]
            have hwsh : wsHead (d :: cs') = false := by simp [wsHead, hd']
            rw [hwsh, if_neg (by simp)]
            rw [words_cons_nw _ hc', words_cons_nw _ hd', List.takeWhile_cons,
              if_pos (by simp [hd']), List.dropWhile_cons, if_pos (by simp [hd'])]
            conv_rhs => rw [joinSp_cons_cons]
            simp
      constructor
      · have h1 : collapseAux true (c :: cs) = c :: collapseAux false cs := by
          simp only [collapseAux, hc', Bool.false_eq_true, if_false]
        rw [h1, key]
      · have h1 : collapseAux false (c :: cs) = c :: collapseAux false cs := by
          simp only [collapseAux, hc', Bool.false_eq_true, if_false]
        have h2 : wsHead (c :: cs) = false := by simp [wsHead, hc']
        rw [h1, key, h2, if_neg (by simp)]
        rfl

theorem collapseWs_strip_eq (x : List Char) :
    collapseWs (stripL x) = joinSp (words x) := by
  have hdec := dropTrail_decomp (x.dropWhile isWs)
  have hnt : ∀ c, (stripL x).getLast? = some c → isWs c = false := by
    intro c hc
    exact noTrail_dropTrail (x.dropWhile isWs) hc
  obtain ⟨_, hF⟩ := collapseAux_eq_joinSp (stripL x) hnt
  have hwshs : wsHead (stripL x) = false := by
    cases hsv : stripL x with
    | nil => rfl
    | cons a s' =>
      have hmh : (x.dropWhile isWs).head? = some a := by
        rw [← hdec.1]
        have hsv' : ((x.dropWhile isWs).reverse.dropWhile isWs).reverse = a :: s' := hsv
        rw [hsv']
        rfl
      have := head?_dropWhile hmh
      simp [wsHead, this]
  have hwords : words (stripL x) = words x := by
    have h1 : words (x.dropWhile isWs) = words (stripL x) := by
      rw [← hdec.1]
      exact words_append_ws hdec.2 (stripL x)
    rw [← h1]
    exact words_dropWhile x
  show collapseAux false (stripL x) = _
  rw [hF, hwshs, if_neg (by simp), hwords]
  rfl

theorem normalize_data (v : Option String) :
    (normalize v).data = joinSp ((words (getS v).data).map (List.map lowerChar)) := by
  show collapseWs ((stripL (getS v).data).map lowerChar) = _
  rw [← stripL_map_lowerChar, collapseWs_strip_eq, words_map_lowerChar]

/-! ### Shape of the word list and idempotence -/

theorem words_nonempty_nonws_aux :
    ∀ n (l : List Char), l.length ≤ n →
      ∀ w ∈ words l, w ≠ [] ∧ ∀ c ∈ w, isWs c = false := by
  intro n
  induction n with
  | zero =>
    intro l h w hw
    have hx : l = [] := by
      cases l with
      | nil => rfl
      | cons a t => simp at h
    subst hx
    rw [words_nil] at hw
    simp at hw
  | succ n ih =>
    intro l hlen
    cases l with
    | nil =>
      rw [words_nil]
      simp
    | cons c cs =>
      have hlen' : cs.length ≤ n := by simpa using Nat.le_of_succ_le_succ hlen
      by_cases hc : isWs c = true
      · rw [words_cons_ws _ hc]
        exact ih cs hlen'
      · have hc' : isWs c = false := by simpa using hc
        rw [words_cons_nw _ hc']
        intro w hw
        rcases List.mem_cons.mp hw with rfl | hw
        · refine ⟨by simp, ?_⟩
          intro x hx
          rcases List.mem_cons.mp hx with rfl | hx
          · exact hc'
          · have := List.mem_takeWhile_imp hx
            simpa using this
        · exact ih (cs.dropWhile (fun d => !isWs d))
            (le_trans (List.dropWhile_sublist _).length_le hlen') w hw

theorem words_nonempty_nonws (l : List Char) :
    ∀ w ∈ words l, w ≠ [] ∧ ∀ c ∈ w, isWs c = false :=
  words_nonempty_nonws_aux l.length l le_rfl

theorem words_joinSp (W : List (List Char))
    (h : ∀ w ∈ W, w ≠ [] ∧ ∀ c ∈ w, isWs c = false) : words (joinSp W) = W := by
  induction W with
  | nil => exact words_nil
  | cons w W' ih =>
    cases W' with
    | nil =>
      obtain ⟨hne, hnw⟩ := h w (by simp)
      cases w with
      | nil => exact absurd rfl hne
      | cons c w' =>
        show words (c :: w') = [c :: w']
        rw [words_cons_nw _ (hnw c (by simp))]
        rw [takeWhile_all (fun d hd => by simp [hnw d (by simp [hd])]),
          dropWhile_all (fun d hd => by simp [hnw d (by simp [hd])]), words_nil]
    | cons w2 W'' =>
      obtain ⟨hne, hnw⟩ := h w (by simp)
      have hih := ih (fun u hu => h u (by simp [hu]))
      show words (w ++ ' ' :: joinSp (w2 :: W'')) = w :: w2 :: W''
      cases w with
      | nil => exact absurd rfl hne
      | cons c w' =>
        have hw' : ∀ d ∈ w', (fun d => !isWs d) d = true := by
          intro d hd
          simp [hnw d (by simp [hd])]
        rw [List.cons_append, words_cons_nw _ (hnw c (by simp)),
          takeWhile_append_all _ hw', dropWhile_append_all _ hw',
          List.takeWhile_cons, if_neg (by simp [isWs]),
          List.dropWhile_cons, if_neg (by simp [isWs]),
          words_cons_ws _ (by simp [isWs]), hih]
        simp

theorem map_lower_idem (W : List (List Char)) :
    (W.map (List.map lowerChar)).map (List.map lowerChar) = W.map (List.map lowerChar) := by
  rw [List.map_map]
  apply List.map_congr_left
  intro w _
  simp only [Function.comp_apply, List.map_map]
  apply List.map_congr_left
  intro c _
  simp only [Function.comp_apply]
  exact lowerChar_idem c

theorem normalize_idem (v : Option String) :
    normalize (some (normalize v)) = normalize v := by
  apply String.ext
  rw [normalize_data (some (normalize v))]
  have h1 : getS (some (normalize v)) = normalize v := rfl
  rw [h1, normalize_data v]
  have hW : ∀ w ∈ (words (getS v).data).map (List.map lowerChar),
      w ≠ [] ∧ ∀ c ∈ w, isWs c = false := by
    intro w hw
    rcases List.mem_map.mp hw with ⟨u, hu, rfl⟩
    obtain ⟨hne, hnw⟩ := words_nonempty_nonws (getS v).data u hu
    constructor
    · simpa using hne
    · intro c hc
      rcases List.mem_map.mp hc with ⟨d, hd, rfl⟩
      rw [isWs_lowerChar]
      exact hnw d hd
  rw [words_joinSp _ hW, map_lower_idem]

/-! ### Invariance of `normalize` under case / whitespace-run changes -/

theorem caseWs_lowWords {x y : List Char} (h : CaseWsEquiv x y) :
    (words x).map (List.map lowerChar) = (words y).map (List.map lowerChar)
      ∧ headKind x = headKind y := by
  induction h with
  | nil => exact ⟨rfl, rfl⟩
  | @chr c d xs ys hc hd hlow hsub ih =>
    obtain ⟨ihW, ihK⟩ := ih
    refine ⟨?_, by simp [headKind, hc, hd]⟩
    cases xs with
    | nil =>
      cases ys with
      | nil =>
        rw [words_cons_nw _ hc, words_cons_nw _ hd]
        simp [words_nil, hlow]
      | cons e ys' =>
        exfalso
        by_cases he : isWs e = true <;> simp [headKind, he] at ihK
    | cons e xs' =>
      cases ys with
      | nil =>
        exfalso
        by_cases he : isWs e = true <;> simp [headKind, he] at ihK
      | cons f ys' =>
        by_cases he : isWs e = true
        · have hf : isWs f = true := by
            by_contra hf
            simp [headKind, he, hf] at ihK
          rw [words_cons_nw _ hc, words_cons_nw _ hd,
            List.takeWhile_cons, if_neg (by simp [he]),
            List.dropWhile_cons, if_neg (by simp [he]),
            List.takeWhile_cons, if_neg (by simp [hf]),
            List.dropWhile_cons, if_neg (by simp [hf])]
          simp only [List.map_cons, List.takeWhile_nil]
          rw [ihW]
          simp [hlow]
        · have he' : isWs e = false := by simpa using he
          have hf' : isWs f = false := by
            by_contra hf
            simp [headKind, he', hf] at ihK
          rw [words_cons_nw _ hc, words_cons_nw _ hd,
            List.takeWhile_cons, if_pos (by simp [he']),
            List.dropWhile_cons, if_pos (by simp [he']),
            List.takeWhile_cons, if_pos (by simp [hf']),
            List.dropWhile_cons, if_pos (by simp [hf'])]
          rw [words_cons_nw _ he', words_cons_nw _ hf'] at ihW
          simp only [List.map_cons, List.cons.injEq] at ihW ⊢
          obtain ⟨ihHead, ihTail⟩ := ihW
          obtain ⟨ihH1, ihH2⟩ := ihHead
          exact ⟨⟨hlow, ihH1, ihH2⟩, ihTail⟩
  | @ws a b w₁ w₂ xs ys ha hb hw1 hw2 hsub ih =>
    obtain ⟨ihW, _⟩ := ih
    refine ⟨?_, by simp [headKind, ha, hb]⟩
    rw [words_cons_ws _ ha, words_cons_ws _ hb, words_ws_append hw1,
      words_ws_append hw2]
    exact ihW

theorem normalize_caseWs {x y : String} (h : CaseWsEquiv x.data y.data) :
    normalize (some x) = normalize (some y) := by
  apply String.ext
  rw [normalize_data (some x), normalize_data (some y)]
  have h1 : getS (some x) = x := rfl
  have h2 : getS (some y) = y := rfl
  rw [h1, h2, (caseWs_lowWords h).1]

/-! ### The grouping loop -/

theorem insertGroup_keys (acc : List (NKey × List OfferRow)) (k : NKey) (r : OfferRow) :
    (insertGroup acc k r).map Prod.fst
      = if k ∈ acc.map Prod.fst then acc.map Prod.fst
        else acc.map Prod.fst ++ [k] := by
  induction acc with
  | nil => simp [insertGroup]
  | cons g rest ih =>
    by_cases hg : g.1 = k
    · simp only [insertGroup, if_pos hg, List.map_cons]
      rw [if_pos (by simp [List.mem_cons, hg.symm])]
    · simp only [insertGroup, if_neg hg, List.map_cons, ih]
      by_cases hk : k ∈ rest.map Prod.fst
      · rw [if_pos hk, if_pos (by simp [List.mem_cons, hk])]
      · rw [if_neg hk, if_neg ?hne]
        · simp
        case hne =>
          simp only [List.mem_cons]
          rintro (h1 | h1)
          · exact hg h1.symm
          · exact hk h1

theorem insertGroup_mem {acc : List (NKey × List OfferRow)}
    (hnd : (acc.map Prod.fst).Nodup) (k : NKey) (r : OfferRow) :
    ∀ g' ∈ insertGroup acc k r,
      (g' ∈ acc ∧ g'.1 ≠ k) ∨
      (g'.1 = k ∧ ((k ∉ acc.map Prod.fst ∧ g' = (k, [r])) ∨
        (∃ rs, (k, rs) ∈ acc ∧ g' = (k, rs ++ [r])))) := by
  induction acc with
  | nil =>
    intro g' hg'
    simp only [insertGroup, List.mem_singleton] at hg'
    subst hg'
    exact Or.inr ⟨rfl, Or.inl ⟨by simp, rfl⟩⟩
  | cons g rest ih =>
    obtain ⟨gk, grs⟩ := g
    intro g' hg'
    have hnd2 := List.nodup_cons.mp
      (show (gk :: rest.map Prod.fst).Nodup by simpa only [List.map_cons] using hnd)
    by_cases hg : gk = k
    · subst hg
      rw [show insertGroup ((gk, grs) :: rest) gk r
            = (gk, grs ++ [r]) :: rest from by simp [insertGroup]] at hg'
      rcases List.mem_cons.mp hg' with rfl | hmem
      · exact Or.inr ⟨rfl, Or.inr ⟨grs, by simp, rfl⟩⟩
      · left
        refine ⟨List.mem_cons_of_mem _ hmem, ?_⟩
        intro hk
        exact hnd2.1 (by
          rw [← hk]
          exact List.mem_map_of_mem Prod.fst hmem)
    · rw [show insertGroup ((gk, grs) :: rest) k r
            = (gk, grs) :: insertGroup rest k r from by simp [insertGroup, hg]] at hg'
      rcases List.mem_cons.mp hg' with rfl | hmem
      · exact Or.inl ⟨List.mem_cons_self _ _, hg⟩
      · rcases ih hnd2.2 g' hmem with ⟨hin, hne⟩ | ⟨hk1, hrest⟩
        · exact Or.inl ⟨List.mem_cons_of_mem _ hin, hne⟩
        · right
          refine ⟨hk1, ?_⟩
          rcases hrest with ⟨hnotin, heq⟩ | ⟨rs, hin, heq⟩
          · left
            refine ⟨?_, heq⟩
            simp only [List.map_cons, List.mem_cons]
            rintro (h1 | h1)
            · exact hg h1.symm
            · exact hnotin h1
          · exact Or.inr ⟨rs, List.mem_cons_of_mem _ hin, heq⟩

theorem groupsInv_nil : GroupsInv [] [] := by
  refine ⟨by simp, by simp, by simp⟩

theorem groupsInv_step {p : List OfferRow} {acc : List (NKey × List OfferRow)}
    (h : GroupsInv p acc) (r : OfferRow) :
    GroupsInv (p ++ [r]) (insertGroup acc (keyOf r) r) := by
  obtain ⟨hnd, hmemiff, hfilter⟩ := h
  refine ⟨?_, ?_, ?_⟩
  · rw [insertGroup_keys]
    by_cases hk : keyOf r ∈ acc.map Prod.fst
    · rw [if_pos hk]
      exact hnd
    · rw [if_neg hk, List.nodup_append]
      refine ⟨hnd, by simp, ?_⟩
      intro a ha hb
      simp only [List.mem_singleton] at hb
      subst hb
      exact hk ha
  · intro k
    rw [insertGroup_keys]
    by_cases hk : keyOf r ∈ acc.map Prod.fst
    · rw [if_pos hk, hmemiff k]
      constructor
      · rintro ⟨r', hr', hkey⟩
        exact ⟨r', by simp [hr'], hkey⟩
      · rintro ⟨r', hr', hkey⟩
        rcases List.mem_append.mp hr' with hr'' | hr''
        · exact ⟨r', hr'', hkey⟩
        · simp only [List.mem_singleton] at hr''
          subst hr''
          obtain ⟨r'', hr''p, hr''k⟩ := (hmemiff (keyOf r')).mp hk
          exact ⟨r'', hr''p, by rw [hr''k, hkey]⟩
    · rw [if_neg hk]
      constructor
      · intro hin
        rcases List.mem_append.mp hin with hin | hin
        · obtain ⟨r', hr', hkey⟩ := (hmemiff k).mp hin
          exact ⟨r', by simp [hr'], hkey⟩
        · simp only [List.mem_singleton] at hin
          subst hin
          exact ⟨r, by simp, rfl⟩
      · rintro ⟨r', hr', hkey⟩
        rcases List.mem_append.mp hr' with hr'' | hr''
        · exact List.mem_append.mpr (Or.inl ((hmemiff k).mpr ⟨r', hr'', hkey⟩))
        · simp only [List.mem_singleton] at hr''
          subst hr''
          subst hkey
          simp
  · intro g' hg'
    rcases insertGroup_mem hnd (keyOf r) r g' hg' with ⟨hin, hne⟩ | ⟨hk1, hrest⟩
    · rw [List.filter_append]
      have h1 : List.filter (fun x => keyOf x = g'.1) [r] = [] := by
        rw [List.filter_cons, if_neg (by
          simp only [decide_eq_true_eq]
          exact fun he => hne he.symm)]
        rfl
      rw [h1, List.append_nil]
      exact hfilter g' hin
    · rcases hrest with ⟨hnotin, rfl⟩ | ⟨rs, hin, rfl⟩
      · rw [List.filter_append]
        have h1 : List.filter (fun x => keyOf x = (keyOf r, [r]).1) p = [] := by
          rw [List.filter_eq_nil_iff]
          intro a ha hcon
          apply hnotin
          rw [hmemiff]
          exact ⟨a, ha, by simpa using hcon⟩
        rw [h1, List.nil_append, List.filter_cons, if_pos (by simp)]
        rfl
      · have h2 := hfilter _ hin
        rw [List.filter_append]
        simp only at h2 ⊢
        rw [← h2, List.filter_cons, if_pos (by simp)]
        rfl

theorem groupsInv_foldl (l : List OfferRow) :
    ∀ (p : List OfferRow) (acc : List (NKey × List OfferRow)), GroupsInv p acc →
      GroupsInv (p ++ l) (l.foldl (fun acc r => insertGroup acc (keyOf r) r) acc) := by
  induction l with
  | nil =>
    intro p acc h
    simpa using h
  | cons r t ih =>
    intro p acc h
    have h3 := ih (p ++ [r]) _ (groupsInv_step h r)
    rw [List.foldl_cons]
    simpa [List.append_assoc] using h3

theorem duplicateGroupsAll_inv (offers : List OfferRow) :
    GroupsInv offers (duplicateGroupsAll offers) := by
  have h := groupsInv_foldl offers [] [] groupsInv_nil
  simpa using h

/-! ### Sum lemmas -/

theorem sum_map_zero {α : Type} {K : List α} {f : α → Nat}
    (h : ∀ k ∈ K, f k = 0) : (K.map f).sum = 0 := by
  induction K with
  | nil => rfl
  | cons a t ih => simp [h a (by simp), ih (fun k hk => h k (by simp [hk]))]

theorem sum_map_ite_single {α : Type} [DecidableEq α] {K : List α} {x : α}
    (hnd : K.Nodup) (hx : x ∈ K) :
    (K.map (fun k => if x = k then 1 else 0)).sum = 1 := by
  induction K with
  | nil => simp at hx
  | cons a t ih =>
    rcases List.nodup_cons.mp hnd with ⟨hnotin, hndt⟩
    rcases List.mem_cons.mp hx with rfl | hx'
    · simp only [List.map_cons, List.sum_cons, if_pos rfl]
      have hz : (t.map (fun k => if x = k then 1 else 0)).sum = 0 :=
        sum_map_zero (fun k hk => by
          rw [if_neg]
          intro he
          exact hnotin (he ▸ hk))
      simp [hz]
    · have hax : x ≠ a := by
        intro he
        exact hnotin (he ▸ hx')
      simp only [List.map_cons, List.sum_cons, if_neg hax]
      simp [ih hndt hx']

theorem sum_map_le {α : Type} {K : List α} {f : α → Nat}
    (h : ∀ k ∈ K, 1 ≤ f k) : K.length ≤ (K.map f).sum := by
  induction K with
  | nil => simp
  | cons a t ih =>
    simp only [List.map_cons, List.sum_cons, List.length_cons]
    have h1 := h a (by simp)
    have h2 := ih (fun k hk => h k (by simp [hk]))
    omega

theorem sum_map_sub_one {α : Type} {K : List α} {f : α → Nat}
    (h : ∀ k ∈ K, 1 ≤ f k) :
    (K.map (fun k => f k - 1)).sum = (K.map f).sum - K.length := by
  induction K with
  | nil => simp
  | cons a t ih =>
    simp only [List.map_cons, List.sum_cons, List.length_cons]
    have h1 := h a (by simp)
    have h2 := ih (fun k hk => h k (by simp [hk]))
    have h3 := sum_map_le (K := t) (f := f) (fun k hk => h k (by simp [hk]))
    omega

theorem sum_map_filter {α : Type} {K : List α} {f : α → Nat} {q : α → Bool}
    (h : ∀ k ∈ K, q k = false → f k = 0) :
    ((K.filter q).map f).sum = (K.map f).sum := by
  induction K with
  | nil => rfl
  | cons a t ih =>
    rw [List.filter_cons]
    by_cases hq : q a = true
    · rw [if_pos hq]
      simp only [List.map_cons, List.sum_cons]
      rw [ih (fun k hk hqk => h k (by simp [hk]) hqk)]
    · have hq' : q a = false := by simpa using hq
      rw [if_neg (by simp [hq'])]
      simp only [List.map_cons, List.sum_cons]
      rw [ih (fun k hk hqk => h k (by simp [hk]) hqk), h a (by simp) hq']
      simp

/-! ### Consequences of the grouping invariant -/

theorem groups_keys_perm (offers : List OfferRow) :
    ((duplicateGroupsAll offers).map Prod.fst).Perm ((offers.map keyOf).dedup) := by
  obtain ⟨hnd, hmem, _⟩ := duplicateGroupsAll_inv offers
  rw [List.perm_ext_iff_of_nodup hnd (List.nodup_dedup _)]
  intro k
  rw [hmem k, List.mem_dedup, List.mem_map]

theorem groups_size_pos (offers : List OfferRow) :
    ∀ k ∈ (duplicateGroupsAll offers).map Prod.fst,
      1 ≤ (offers.filter (fun r => keyOf r = k)).length := by
  obtain ⟨hnd, hmem, _⟩ := duplicateGroupsAll_inv offers
  intro k hk
  obtain ⟨r, hr, hkey⟩ := (hmem k).mp hk
  have : r ∈ offers.filter (fun r => keyOf r = k) :=
    List.mem_filter.mpr ⟨hr, by simpa using hkey⟩
  calc 1 = [r].length := rfl
    _ ≤ _ := List.length_pos.mpr (by
      intro hnil
      rw [hnil] at this
      simp at this)

theorem extraRows_eq_sum_over_keys (offers : List OfferRow) :
    extraRows offers
      = (((duplicateGroupsAll offers).map Prod.fst).map
          (fun k => (offers.filter (fun r => keyOf r = k)).length - 1)).sum := by
  obtain ⟨hnd, hmem, hfil⟩ := duplicateGroupsAll_inv offers
  unfold extraRows duplicateGroups
  rw [sum_map_filter (fun g _ hq => by
    simp only [decide_eq_false_iff_not, Nat.not_lt] at hq
    omega)]
  rw [List.map_map]
  apply congrArg List.sum
  apply List.map_congr_left
  intro g hg
  simp only [Function.comp_apply]
  rw [hfil g hg]

theorem length_dedup_keys (offers : List OfferRow) :
    ((duplicateGroupsAll offers).map Prod.fst).length
      = ((offers.map keyOf).dedup).length :=
  (groups_keys_perm offers).length_eq

/-! ### The stable sort -/

theorem insDesc_perm (g : NKey × List OfferRow) (l : List (NKey × List OfferRow)) :
    (insDesc g l).Perm (g :: l) := by
  induction l with
  | nil => exact List.Perm.refl _
  | cons h t ih =>
    show (if h.2.length ≤ g.2.length then g :: h :: t else h :: insDesc g t).Perm _
    by_cases hle : h.2.length ≤ g.2.length
    · rw [if_pos hle]
    · rw [if_neg hle]
      exact (ih.cons h).trans (List.Perm.swap g h t)

theorem insDesc_pairwise {l : List (NKey × List OfferRow)}
    (hs : l.Pairwise (fun a b => b.2.length ≤ a.2.length))
    (g : NKey × List OfferRow) :
    (insDesc g l).Pairwise (fun a b => b.2.length ≤ a.2.length) := by
  induction l with
  | nil => simp [insDesc]
  | cons h t ih =>
    rcases List.pairwise_cons.mp hs with ⟨hh, ht⟩
    show (if h.2.length ≤ g.2.length then g :: h :: t else h :: insDesc g t).Pairwise _
    by_cases hle : h.2.length ≤ g.2.length
    · rw [if_pos hle, List.pairwise_cons]
      refine ⟨?_, hs⟩
      intro b hb
      rcases List.mem_cons.mp hb with rfl | hb
      · exact hle
      · exact le_trans (hh b hb) hle
    · rw [if_neg hle, List.pairwise_cons]
      refine ⟨?_, ih ht⟩
      intro b hb
      rcases List.mem_cons.mp ((insDesc_perm g t).mem_iff.mp hb) with rfl | hb'
      · exact le_of_lt (Nat.lt_of_not_le hle)
      · exact hh b hb'

theorem sortByLenDesc_sorted (l : List (NKey × List OfferRow)) :
    (sortByLenDesc l).Pairwise (fun a b => b.2.length ≤ a.2.length) := by
  induction l with
  | nil => simp [sortByLenDesc]
  | cons x t ih => exact insDesc_pairwise ih x

theorem sortByLenDesc_perm (l : List (NKey × List OfferRow)) :
    (sortByLenDesc l).Perm l := by
  induction l with
  | nil => exact List.Perm.refl _
  | cons x t ih => exact (insDesc_perm x (sortByLenDesc t)).trans (ih.cons x)

theorem insDesc_filter_len {l : List (NKey × List OfferRow)}
    (hs : l.Pairwise (fun a b => b.2.length ≤ a.2.length))
    (g : NKey × List OfferRow) (n : Nat) :
    (insDesc g l).filter (fun x => x.2.length == n)
      = if (g.2.length == n) = true then g :: l.filter (fun x => x.2.length == n)
        else l.filter (fun x => x.2.length == n) := by
  induction l with
  | nil =>
    show List.filter _ [g] = _
    rw [List.filter_cons]
  | cons h t ih =>
    rcases List.pairwise_cons.mp hs with ⟨hh, ht⟩
    show List.filter _ (if h.2.length ≤ g.2.length then g :: h :: t else h :: insDesc g t) = _
    by_cases hle : h.2.length ≤ g.2.length
    · rw [if_pos hle, List.filter_cons]
    · rw [if_neg hle]
      by_cases hg : (g.2.length == n) = true
      · have hgn : g.2.length = n := by simpa using hg
        have hhn : ¬ (h.2.length == n) = true := by
          simp only [beq_iff_eq]
          omega
        rw [List.filter_cons, if_neg hhn, ih ht, if_pos hg, if_pos hg,
          List.filter_cons, if_neg hhn]
      · rw [List.filter_cons, ih ht, if_neg hg, if_neg hg, List.filter_cons]

theorem sortByLenDesc_filter (l : List (NKey × List OfferRow)) (n : Nat) :
    (sortByLenDesc l).filter (fun x => x.2.length == n)
      = l.filter (fun x => x.2.length == n) := by
  induction l with
  | nil => rfl
  | cons x t ih =>
    show (insDesc x (sortByLenDesc t)).filter _ = _
    rw [insDesc_filter_len (sortByLenDesc_sorted t) x n, List.filter_cons]
    by_cases hg : (x.2.length == n) = true
    · rw [if_pos hg, if_pos hg, ih]
    · rw [if_neg hg, if_neg hg, ih]

/-! ### Helper lemmas for the integrity counts -/

theorem length_filter_disjoint {α : Type} (l : List α) (p q : α → Bool)
    (h : ∀ x ∈ l, ¬(p x = true ∧ q x = true)) :
    (l.filter p).length + (l.filter q).length ≤ l.length := by
  induction l with
  | nil => simp
  | cons a t ih =>
    rw [List.filter_cons, List.filter_cons]
    have ht := ih (fun x hx => h x (by simp [hx]))
    have ha := h a (by simp)
    by_cases hp : p a = true <;> by_cases hq : q a = true
    · exact absurd ⟨hp, hq⟩ ha
    · rw [if_pos hp, if_neg hq]
      simp only [List.length_cons]
      omega
    · rw [if_neg hp, if_pos hq]
      simp only [List.length_cons]
      omega
    · rw [if_neg hp, if_neg hq]
      simp only [List.length_cons]
      omega

theorem length_filter_not_add {α : Type} (l : List α) (q : α → Bool) :
    (l.filter (fun x => !q x)).length + (l.filter q).length = l.length := by
  induction l with
  | nil => rfl
  | cons a t ih =>
    rw [List.filter_cons, List.filter_cons]
    by_cases hq : q a = true
    · rw [if_pos hq, if_neg (by simp [hq])]
      simp only [List.length_cons]
      omega
    · have hq' : q a = false := by simpa using hq
      rw [if_pos (by simp [hq']), if_neg (by simp [hq'])]
      simp only [List.length_cons]
      omega

theorem offersByFunnel_eq_zero (offers : List OfferRow) (s : String) :
    offersByFunnel offers s = 0 ↔
      ¬ s ∈ (offers.filter (fun r => truthy r.funnel_id)).map (fun r => getS r.funnel_id) := by
  unfold offersByFunnel
  rw [List.length_eq_zero, List.filter_eq_nil_iff]
  constructor
  · intro h hs
    rcases List.mem_map.mp hs with ⟨r, hr, hrs⟩
    rcases List.mem_filter.mp hr with ⟨hro, hrt⟩
    exact (h r hro) (by simp [hrt, hrs])
  · intro h r hro hcon
    simp only [Bool.and_eq_true, beq_iff_eq] at hcon
    apply h
    rw [List.mem_map]
    exact ⟨r, List.mem_filter.mpr ⟨hro, hcon.1⟩, hcon.2⟩

theorem offersByFunnel_beq_contains (offers : List OfferRow) (i : String) :
    (offersByFunnel offers i == 0)
      = !((offers.filter (fun r => truthy r.funnel_id)).map
          (fun r => getS r.funnel_id)).contains i := by
  rw [Bool.eq_iff_iff, beq_iff_eq, offersByFunnel_eq_zero]
  simp [List.elem_iff]

/-- C1: an offer row counts as "missing funnel id" iff its `funnel_id` is
empty or absent, and as "invalid funnel id" iff its `funnel_id` is non-empty
and not among the funnel ids (exact string equality); the two conditions are
mutually exclusive, and the two reported counts sum to at most the reported
offer total. -/
theorem c1_missing_invalid_exclusive (funnels : List FunnelRow) (offers : List OfferRow) :
    (∀ r : OfferRow, r ∈ missingFunnelRows offers
      ↔ r ∈ offers ∧ (r.funnel_id = none ∨ r.funnel_id = some ""))
    ∧ (∀ r : OfferRow, r ∈ invalidFunnelRows funnels offers
      ↔ r ∈ offers ∧ ∃ s, r.funnel_id = some s ∧ s ≠ "" ∧ s ∉ funnels.map FunnelRow.id)
    ∧ (∀ r : OfferRow,
        ¬((r.funnel_id = none ∨ r.funnel_id = some "")
          ∧ ∃ s, r.funnel_id = some s ∧ s ≠ "" ∧ s ∉ funnels.map FunnelRow.id))
    ∧ (report funnels offers).integrity.offers_with_invalid_funnel_id
        + (report funnels offers).integrity.offers_missing_funnel_id
      ≤ (report funnels offers).totals.offers := by
  refine ⟨?_, ?_, ?_, ?_⟩
  · intro r
    rw [missingFunnelRows, List.mem_filter]
    apply and_congr_right
    intro _
    cases hfid : r.funnel_id with
    | none => simp [truthy]
    | some s => simp [truthy]
  · intro r
    rw [invalidFunnelRows, List.mem_filter]
    apply and_congr_right
    intro _
    cases hfid : r.funnel_id with
    | none => simp [truthy]
    | some s =>
      simp only [Bool.and_eq_true, Bool.not_eq_true', truthy, getS, Option.getD_some,
        Bool.not_eq_true]
      constructor
      · rintro ⟨hne, hnc⟩
        refine ⟨s, rfl, by simpa using hne, ?_⟩
        intro hmem
        rw [show (funnelIds funnels).contains s = true from
          List.elem_iff.mpr (by simpa [funnelIds] using hmem)] at hnc
        simp at hnc
      · rintro ⟨s', hs', hne, hnmem⟩
        obtain rfl : s = s' := by simpa using hs'
        refine ⟨by simpa using hne, ?_⟩
        rw [← Bool.not_eq_true]
        intro hc
        exact hnmem (by simpa [funnelIds] using List.elem_iff.mp hc)
  · rintro r ⟨hmiss, s, hs, hne, _⟩
    rcases hmiss with h1 | h1
    · rw [h1] at hs
      exact Option.noConfusion hs
    · rw [h1] at hs
      exact hne (by simpa using hs.symm)
  · show (invalidFunnelRows funnels offers).length + (missingFunnelRows offers).length
      ≤ offers.length
    apply length_filter_disjoint
    rintro x _ ⟨hp, hq⟩
    simp only [Bool.and_eq_true] at hp
    rw [hp.1] at hq
    simp at hq

/-- Witness for C1 at the sample scenario: the `F9` row is classified as an
invalid funnel reference. -/
theorem c1_witness :
    (⟨some "P1", some "F9", some "X", some "Promo", none⟩ : OfferRow)
      ∈ invalidFunnelRows exFunnels exOffers :=
  ((c1_missing_invalid_exclusive exFunnels exOffers).2.1 _).mpr
    ⟨by decide, "F9", rfl, by decide, by decide⟩

/-- C2: the funnels reported "without offers" are exactly the funnels whose
id is not among the non-empty `funnel_id` values of the offer rows, and
(funnel ids being unique identifiers) their number plus the number of
distinct funnel ids with at least one offer equals the funnel total. -/
theorem c2_funnels_without_offers (funnels : List FunnelRow) (offers : List OfferRow)
    (h : (funnels.map FunnelRow.id).Nodup) :
    funnelsWithoutOffers funnels offers
      = funnels.filter
          (fun f => !((offers.filter (fun r => truthy r.funnel_id)).map
            (fun r => getS r.funnel_id)).contains f.id)
    ∧ (funnelsWithoutOffers funnels offers).length
        + ((funnels.map FunnelRow.id).dedup.filter
            (fun i => ((offers.filter (fun r => truthy r.funnel_id)).map
              (fun r => getS r.funnel_id)).contains i)).length
      = funnels.length := by
  have heq : funnelsWithoutOffers funnels offers
      = funnels.filter
          (fun f => !((offers.filter (fun r => truthy r.funnel_id)).map
            (fun r => getS r.funnel_id)).contains f.id) := by
    unfold funnelsWithoutOffers
    exact List.filter_congr (fun f _ => offersByFunnel_beq_contains offers f.id)
  refine ⟨heq, ?_⟩
  rw [heq, h.dedup, List.filter_map, List.length_map]
  have hcong : funnels.filter
      ((fun i => ((offers.filter (fun r => truthy r.funnel_id)).map
        (fun r => getS r.funnel_id)).contains i) ∘ FunnelRow.id)
      = funnels.filter
        (fun f => ((offers.filter (fun r => truthy r.funnel_id)).map
          (fun r => getS r.funnel_id)).contains f.id) :=
    List.filter_congr (fun f _ => rfl)
  rw [hcong]
  exact length_filter_not_add funnels _

/-- Witness for C2 at the sample scenario (funnel ids `F1`, `F2` are
distinct). -/
theorem c2_witness :
    funnelsWithoutOffers exFunnels exOffers
      = exFunnels.filter
          (fun f => !((exOffers.filter (fun r => truthy r.funnel_id)).map
            (fun r => getS r.funnel_id)).contains f.id)
    ∧ (funnelsWithoutOffers exFunnels exOffers).length
        + ((exFunnels.map FunnelRow.id).dedup.filter
            (fun i => ((exOffers.filter (fun r => truthy r.funnel_id)).map
              (fun r => getS r.funnel_id)).contains i)).length
      = exFunnels.length :=
  c2_funnels_without_offers exFunnels exOffers (by decide)

theorem sum_groupSizes {K : List NKey} (hnd : K.Nodup) :
    ∀ p : List OfferRow, (∀ r ∈ p, keyOf r ∈ K) →
      (K.map (fun k => (p.filter (fun r => keyOf r = k)).length)).sum = p.length := by
  intro p
  induction p with
  | nil =>
    intro _
    exact sum_map_zero (fun k _ => rfl)
  | cons r p' ih =>
    intro hcov
    have hcov' : ∀ x ∈ p', keyOf x ∈ K := fun x hx => hcov x (by simp [hx])
    have hstep : ∀ k ∈ K, ((r :: p').filter (fun x => keyOf x = k)).length
        = (p'.filter (fun x => keyOf x = k)).length + (if keyOf r = k then 1 else 0) := by
      intro k _
      rw [List.filter_cons]
      by_cases hrk : keyOf r = k
      · rw [if_pos (by simpa using hrk), if_pos hrk]
        simp
      · rw [if_neg (by simpa using hrk), if_neg hrk]
        rfl
    rw [List.map_congr_left hstep, List.sum_map_add, ih hcov',
      sum_map_ite_single hnd (hcov r (by simp))]
    simp [Nat.add_comm]

theorem nodup_filter_le {offers : List OfferRow} (hnd : (offers.map keyOf).Nodup) :
    ∀ k, (offers.filter (fun r => keyOf r = k)).length ≤ 1 := by
  induction offers with
  | nil =>
    intro k
    simp
  | cons r t ih =>
    rcases List.nodup_cons.mp
      (show (keyOf r :: t.map keyOf).Nodup by simpa only [List.map_cons] using hnd)
      with ⟨hnotin, hndt⟩
    intro k
    rw [List.filter_cons]
    by_cases hk : keyOf r = k
    · rw [if_pos (by simpa using hk)]
      have hnil : List.filter (fun x => keyOf x = k) t = [] := by
        rw [List.filter_eq_nil_iff]
        intro a ha hcon
        apply hnotin
        rw [hk]
        exact List.mem_map.mpr ⟨a, ha, by simpa using hcon⟩
      rw [hnil]
      simp
    · rw [if_neg (by simpa using hk)]
      exact ih hndt k

/-- C3: `extra_rows` equals the sum of (group size - 1) over exactly the
normalized-4-tuple groups of size above one; when no two offer rows share a
normalized key, the report shows zero duplicate groups and zero extra
rows. -/
theorem c3_extra_rows (funnels : List FunnelRow) (offers : List OfferRow) :
    extraRows offers
      = (((offers.map keyOf).dedup.filter
          (fun k => 1 < (offers.filter (fun r => keyOf r = k)).length)).map
          (fun k => (offers.filter (fun r => keyOf r = k)).length - 1)).sum
    ∧ ((offers.map keyOf).Nodup →
        (report funnels offers).duplicates = ⟨0, 0⟩) := by
  constructor
  · rw [extraRows_eq_sum_over_keys]
    rw [sum_map_filter (fun k _ hq => by
      simp only [decide_eq_false_iff_not, Nat.not_lt] at hq
      omega)]
    exact ((groups_keys_perm offers).map _).sum_eq
  · intro hnd
    have hsz := nodup_filter_le hnd
    have hemp : duplicateGroups offers = [] := by
      rw [duplicateGroups, List.filter_eq_nil_iff]
      intro g hg
      obtain ⟨_, _, hfil⟩ := duplicateGroupsAll_inv offers
      rw [hfil g hg]
      simp only [decide_eq_true_eq, Nat.not_lt]
      exact hsz g.1
    have hlen : (duplicateGroups offers).length = 0 := by
      rw [hemp]
      rfl
    have hex : extraRows offers = 0 := by
      unfold extraRows
      rw [hemp]
      rfl
    show Duplicates.mk (duplicateGroups offers).length (extraRows offers) = Duplicates.mk 0 0
    rw [hlen, hex]

/-- Witness for C3: in the sample scenario all three normalized keys are
distinct, so the report shows zero duplicate groups and zero extra rows. -/
theorem c3_witness : (report exFunnels exOffers).duplicates = ⟨0, 0⟩ :=
  (c3_extra_rows exFunnels exOffers).2 (by decide)

/-- C10: `extra_rows` equals the number of offer rows minus the number of
distinct normalized (project, funnel, product, offer) tuples among them. -/
theorem c10_extra_rows_closed_form (offers : List OfferRow) :
    extraRows offers = offers.length - ((offers.map keyOf).dedup).length := by
  obtain ⟨hnd, hmem, hfil⟩ := duplicateGroupsAll_inv offers
  rw [extraRows_eq_sum_over_keys, sum_map_sub_one (groups_size_pos offers),
    sum_groupSizes hnd offers (fun r hr => (hmem (keyOf r)).mpr ⟨r, hr, rfl⟩),
    length_dedup_keys]

/-- Counterexample to C4 as stated: with eleven offer rows referencing
eleven distinct unknown funnel ids, the `samples.invalid_funnel_ids` mapping
holds eleven entries, not at most ten — the script never truncates this
counter. -/
theorem c4_counterexample :
    10 < (((invalidFunnelRows [] elevenInvalidOffers).map
        (fun r => getS r.funnel_id)).dedup).length
    ∧ ∀ s ∈ ((invalidFunnelRows [] elevenInvalidOffers).map
        (fun r => getS r.funnel_id)).dedup,
        0 < (report [] elevenInvalidOffers).samples.invalid_funnel_ids s := by
  decide

/-- C4 as amended: `samples.invalid_funnel_ids` is the full (untruncated)
mapping assigning to each funnel-id value its number of occurrences among
the offer rows with an invalid funnel reference, and its keys are exactly
the funnel-id values of those rows. -/
theorem c4_invalid_ids_mapping (funnels : List FunnelRow) (offers : List OfferRow)
    (s : String) :
    (report funnels offers).samples.invalid_funnel_ids s
      = (offers.filter (fun r =>
          (truthy r.funnel_id
            && !((funnels.map FunnelRow.id).contains (getS r.funnel_id)))
          && getS r.funnel_id == s)).length
    ∧ (0 < (report funnels offers).samples.invalid_funnel_ids s
        ↔ ∃ r ∈ invalidFunnelRows funnels offers, getS r.funnel_id = s) := by
  constructor
  · show (invalidFunnelIdsSample funnels offers) s = _
    unfold invalidFunnelIdsSample invalidFunnelRows
    rw [List.filter_filter]
    apply congrArg List.length
    apply List.filter_congr
    intro r _
    rw [Bool.and_comm]
    rfl
  · show 0 < (invalidFunnelIdsSample funnels offers) s ↔ _
    unfold invalidFunnelIdsSample
    rw [← List.countP_eq_length_filter, List.countP_pos_iff]
    constructor
    · rintro ⟨r, hr, hrs⟩
      exact ⟨r, hr, by simpa using hrs⟩
    · rintro ⟨r, hr, hrs⟩
      exact ⟨r, hr, by simpa using hrs⟩

/-- C5: the top-duplicate-groups sample holds at most 10 entries, is ordered
by descending member count with ties kept in first-encounter order (sorting
preserves the relative order of equal-count groups), and each entry carries
the group's member count together with the four display fields of the first
row, in original input order, carrying that group's normalized key. -/
theorem c5_top_duplicate_groups (offers : List OfferRow) :
    (topDuplicateGroups offers).length ≤ 10
    ∧ (topDuplicateGroups offers).Pairwise (fun a b => b.count ≤ a.count)
    ∧ (sortByLenDesc (duplicateGroups offers)).Perm (duplicateGroups offers)
    ∧ (∀ n, (sortByLenDesc (duplicateGroups offers)).filter (fun g => g.2.length == n)
        = (duplicateGroups offers).filter (fun g => g.2.length == n))
    ∧ (∀ e ∈ topDuplicateGroups offers, ∃ k r rest,
        offers.filter (fun x => keyOf x = k) = r :: rest
        ∧ 1 < (r :: rest).length
        ∧ e = ⟨(r :: rest).length, getS r.project_id, getS r.funnel_id,
            getS r.nome_produto, getS r.nome_oferta⟩) := by
  refine ⟨?_, ?_, sortByLenDesc_perm _, fun n => sortByLenDesc_filter _ n, ?_⟩
  · show (((sortByLenDesc (duplicateGroups offers)).take 10).map mkDupSample).length ≤ 10
    rw [List.length_map, List.length_take]
    exact Nat.min_le_left _ _
  · show (((sortByLenDesc (duplicateGroups offers)).take 10).map mkDupSample).Pairwise _
    apply List.Pairwise.map
    · intro a b hab
      show (mkDupSample b).count ≤ (mkDupSample a).count
      simpa [mkDupSample] using hab
    · exact List.Pairwise.sublist (List.take_sublist _ _) (sortByLenDesc_sorted _)
  · intro e he
    rcases List.mem_map.mp he with ⟨g, hgtake, rfl⟩
    have hgsorted : g ∈ sortByLenDesc (duplicateGroups offers) :=
      (List.take_sublist _ _).subset hgtake
    have hgdup : g ∈ duplicateGroups offers := (sortByLenDesc_perm _).mem_iff.mp hgsorted
    rcases List.mem_filter.mp hgdup with ⟨hgall, hglen⟩
    obtain ⟨_, _, hfil⟩ := duplicateGroupsAll_inv offers
    have hg2 := hfil g hgall
    have hlen : 1 < g.2.length := by simpa using hglen
    cases hcase : g.2 with
    | nil =>
      rw [hcase] at hlen
      simp at hlen
    | cons r rest =>
      refine ⟨g.1, r, rest, ?_, ?_, ?_⟩
      · rw [← hg2, hcase]
      · rw [hcase] at hlen
        exact hlen
      · unfold mkDupSample
        rw [hcase]
        rfl

/-- Witness for C5 at the duplicate scenario: the single sample entry is the
size-2 group whose representative is the first of the two rows that agree up
to case and whitespace. -/
theorem c5_witness :
    ∃ k r rest,
      dupOffers.filter (fun x => keyOf x = k) = r :: rest
      ∧ 1 < (r :: rest).length
      ∧ (⟨2, "P1", "F1", "Prod", "Offer A"⟩ : DupSample)
          = ⟨(r :: rest).length, getS r.project_id, getS r.funnel_id,
              getS r.nome_produto, getS r.nome_oferta⟩ :=
  (c5_top_duplicate_groups dupOffers).2.2.2.2
    ⟨2, "P1", "F1", "Prod", "Offer A"⟩ (by decide)

/-- C6: `normalize` is idempotent, identifies strings differing only in
letter case or whitespace-run lengths, maps a missing value to the empty
string, and produces exactly the space-join of the lower-cased
whitespace-separated words (so whitespace runs collapse, ends are trimmed,
and letters are lower-cased). -/
theorem c6_normalize_properties :
    (∀ v : Option String, normalize (some (normalize v)) = normalize v)
    ∧ (∀ x y : String, CaseWsEquiv x.data y.data → normalize (some x) = normalize (some y))
    ∧ normalize none = ""
    ∧ (∀ v : Option String,
        (normalize v).data = joinSp ((words (getS v).data).map (List.map lowerChar))) :=
  ⟨normalize_idem, fun _ _ h => normalize_caseWs h, rfl, normalize_data⟩

/-- Witness for C6: two strings differing only in case and in the length of
one whitespace run normalize identically. -/
theorem c6_witness : normalize (some "A  b") = normalize (some "a b") :=
  c6_normalize_properties.2.1 "A  b" "a b"
    (CaseWsEquiv.chr (by decide) (by decide) (by decide)
      (@CaseWsEquiv.ws ' ' ' ' [' '] [] ['b'] ['b'] (by decide) (by decide)
        (by decide) (by decide)
        (CaseWsEquiv.chr (by decide) (by decide) (by decide) CaseWsEquiv.nil)))

/-- C7: an offer row is classified as generic exactly when the normalized
`nome_oferta` equals one of the three verbatim placeholder labels. -/
theorem c7_generic_offers (offers : List OfferRow) (r : OfferRow) :
    r ∈ genericOffers offers
      ↔ r ∈ offers ∧ (normalize r.nome_oferta = "auto-importado"
          ∨ normalize r.nome_oferta = "auto-importado de vendas existentes"
          ∨ normalize r.nome_oferta = "importado das vendas") := by
  rw [genericOffers, List.mem_filter]
  apply and_congr_right
  intro _
  rw [show (genericOfferNames.contains (normalize r.nome_oferta) = true)
      ↔ normalize r.nome_oferta ∈ genericOfferNames from List.elem_iff]
  simp [genericOfferNames]

/-- C8: the spec's sample scenario — funnels `F1`/`F2` and three offer rows —
yields totals 2/3, one missing and one invalid funnel reference (the `F9`
row), one funnel without offers (`F2`), and one generic offer name (the
case-insensitively matched `Auto-Importado` row). -/
theorem c8_sample_scenario :
    (report exFunnels exOffers).totals = ⟨2, 3⟩
    ∧ (report exFunnels exOffers).integrity.offers_missing_funnel_id = 1
    ∧ (report exFunnels exOffers).integrity.offers_with_invalid_funnel_id = 1
    ∧ invalidFunnelRows exFunnels exOffers
        = [⟨some "P1", some "F9", some "X", some "Promo", none⟩]
    ∧ (report exFunnels exOffers).integrity.funnels_without_offers = 1
    ∧ funnelsWithoutOffers exFunnels exOffers = [⟨"F2", some "Lead"⟩]
    ∧ (report exFunnels exOffers).semantics.generic_offer_names = 1
    ∧ genericOffers exOffers
        = [⟨some "P1", some "F1", some "X", some "Auto-Importado", none⟩] := by
  decide

set_option maxRecDepth 8192 in
/-- C9: on empty inputs every count of the report is zero, the origin
distribution is the empty mapping, the samples are empty, and the three
remediation query templates are still present verbatim. -/
theorem c9_empty_input :
    (report [] []).totals = ⟨0, 0⟩
    ∧ (report [] []).integrity = ⟨0, 0, 0, 0, 0, 0⟩
    ∧ (report [] []).duplicates = ⟨0, 0⟩
    ∧ (report [] []).semantics.generic_offer_names = 0
    ∧ (∀ s, (report [] []).semantics.by_origem s = 0)
    ∧ (∀ s, (report [] []).samples.invalid_funnel_ids s = 0)
    ∧ (report [] []).samples.funnels_without_offers = []
    ∧ (report [] []).samples.top_duplicate_groups = []
    ∧ (report [] []).remediation.check_invalid_funnel_sql
        = "SELECT om.project_id, om.funnel_id, COUNT(*) FROM public.offer_mappings om LEFT JOIN public.funnels f ON f.id = om.funnel_id WHERE om.funnel_id IS NOT NULL AND f.id IS NULL GROUP BY om.project_id, om.funnel_id ORDER BY COUNT(*) DESC;"
    ∧ (report [] []).remediation.backfill_by_legacy_name_sql
        = "UPDATE public.offer_mappings om SET funnel_id = f.id, updated_at = now() FROM public.funnels f WHERE om.project_id = f.project_id AND om.funnel_id IS NULL AND om.id_funil IS NOT NULL AND btrim(lower(om.id_funil)) = btrim(lower(f.name));"
    ∧ (report [] []).remediation.reassign_invalid_funnel_sql_template
        = "UPDATE public.offer_mappings om SET funnel_id = :target_funnel_id::uuid, updated_at = now() WHERE om.project_id = :project_id::uuid AND (om.funnel_id IS NULL OR NOT EXISTS (SELECT 1 FROM public.funnels f WHERE f.id = om.funnel_id));" := by
  refine ⟨rfl, rfl, rfl, rfl, fun s => rfl, fun s => rfl, rfl, rfl, by decide, by decide,
    by decide⟩

end Audit
